import Mathlib

/-!
Verification of the Test-Day Model post-processing engine
(`am_tdm/testday_model.py`): a shallow embedding of the numeric pipeline
(Legendre basis builder, solution demultiplexer, variance/heritability
engine, PEV/REL engine, DRP engine) as Lean functions over the reals,
with theorems settling the specified properties.

Conventions: numpy arrays become functions `ℕ → ℝ` (or curried versions
thereof); tensors are only ever read at in-range indices by the theorems,
mirroring the fixed shapes allocated in `TestDayModel.__init__`.
-/

namespace AmTdm

noncomputable section

/-- Legendre polynomials via Bonnet's recurrence, the polynomial family
returned by `scipy.special.legendre`:
`P 0 x = 1`, `P 1 x = x`, `(n+2)·P (n+2) x = (2n+3)·x·P (n+1) x − (n+1)·P n x`. -/
def legendreP : ℕ → ℝ → ℝ
  | 0, _ => 1
  | 1, x => x
  | (n + 2), x =>
      ((2 * (n : ℝ) + 3) * x * legendreP (n + 1) x - ((n : ℝ) + 1) * legendreP n x)
        / ((n : ℝ) + 2)

/-- Embeds `self.scaled_dim_range` (testday_model.py lines 160-161):
`np.arange(lo, hi+1)` rescaled by `-1 + 2*(x - lo)/(hi - lo)`.
`d` is the 0-based offset into the grid, so the grid point is `lo + d`. -/
def scaledDim (lo hi d : ℕ) : ℝ :=
  -1 + 2 * (((lo + d : ℕ) : ℝ) - (lo : ℕ)) / (((hi : ℕ) : ℝ) - ((lo : ℕ) : ℝ))

/-- The scaled DIM grid as a list, one entry per day in `lo..hi`. -/
def scaledDimGrid (lo hi : ℕ) : List ℝ :=
  (List.range (hi - lo + 1)).map (scaledDim lo hi)

/-- Embeds `__add_legendre_coefficients__` (lines 345-352): entry `(d, k)` of
`self.legendre_coefficients` is `legendre(k)(scaled_dim_range[d]) * sqrt(k + 0.5)`. -/
def legendreCoefficients (lo hi d k : ℕ) : ℝ :=
  legendreP k (scaledDim lo hi d) * Real.sqrt ((k : ℝ) + 0.5)

/-- Embeds `self.legendre_partial_sums = np.cumsum(self.legendre_coefficients, axis=0)`
(line 165): running column-wise sums of the Legendre table. -/
def legendreCumSums (lo hi : ℕ) : ℕ → ℕ → ℝ
  | 0, k => legendreCoefficients lo hi 0 k
  | (d + 1), k => legendreCumSums lo hi d k + legendreCoefficients lo hi (d + 1) k

/-- One parsed line of the `solutions` file: `trait effect level value`
(1-based indices), as read in `__read_blupf90_solutions__` (lines 321-325). -/
structure SolRecord where
  trait : ℕ
  effect : ℕ
  level : ℕ
  value : ℝ

/-- The four destinations populated by the solution demultiplexer:
`self.FE`, `self.fixed_curve_coefficients`, `self.additive_coefficients`
and `self.permanent_coefficients`. -/
structure SolState where
  FE : List ℝ
  fixedCurveCoefficients : ℕ → ℕ → ℕ → ℝ
  additiveCoefficients : ℕ → ℕ → ℕ → ℕ → ℝ
  permanentCoefficients : ℕ → ℕ → ℕ → ℕ → ℝ

/-- Embeds the body of the read loop of `__read_blupf90_solutions__`
(lines 326-341): one record is classified by effect band and stored.
`F = len(self.fixed_effects)`, `T = self.number_of_traits`. -/
def routeRecord (F fixedDegree randomDegree T : ℕ) (s : SolState) (r : SolRecord) : SolState :=
  if r.effect ≤ F then
    { s with FE := s.FE ++ [r.value] }
  else if r.effect ≤ F + fixedDegree + 1 then
    { s with fixedCurveCoefficients := fun l t k =>
        if l = (r.trait - 1) / T ∧ t = (r.trait - 1) % T ∧ k = r.effect - F - 1 then r.value
        else s.fixedCurveCoefficients l t k }
  else if r.effect ≤ F + fixedDegree + randomDegree + 2 then
    { s with additiveCoefficients := fun l t a k =>
        if l = (r.trait - 1) / T ∧ t = (r.trait - 1) % T ∧ a = r.level - 1 ∧
            k = r.effect - F - fixedDegree - 2 then r.value
        else s.additiveCoefficients l t a k }
  else
    { s with permanentCoefficients := fun l t a k =>
        if l = (r.trait - 1) / T ∧ t = (r.trait - 1) % T ∧ a = r.level - 1 ∧
            k = r.effect - F - fixedDegree - randomDegree - 3 then r.value
        else s.permanentCoefficients l t a k }

/-- The whole solution stream folded through `routeRecord`, starting from the
zero-filled tensors allocated in `__init__`. -/
def readBlupf90Solutions (F fixedDegree randomDegree T : ℕ) (recs : List SolRecord) : SolState :=
  recs.foldl (routeRecord F fixedDegree randomDegree T)
    ⟨[], fun _ _ _ => 0, fun _ _ _ _ => 0, fun _ _ _ _ => 0⟩

/-- Inputs of `__compute_variances_and_heritabilities__`: the instance fields
it reads. `basis` is `self.legendre_random_coefficients` (a `D × (randomDegree+1)`
table), `G`, `P`, `R` the external (co)variance matrices. -/
structure VarParams where
  T : ℕ
  randomDegree : ℕ
  D : ℕ
  basis : ℕ → ℕ → ℝ
  G : ℕ → ℕ → ℝ
  P : ℕ → ℕ → ℝ
  R : ℕ → ℕ → ℝ

/-- Size of one random-regression block: `self.random_degree + 1`. -/
def K (p : VarParams) : ℕ := p.randomDegree + 1

/-- Matrix product of function-matrices, contracting an index over `0..n-1`. -/
def matMulN (n : ℕ) (A B : ℕ → ℕ → ℝ) : ℕ → ℕ → ℝ :=
  fun i j => ∑ k in Finset.range n, A i k * B k j

/-- Transpose of a function-matrix. -/
def transposeF (A : ℕ → ℕ → ℝ) : ℕ → ℕ → ℝ := fun i j => A j i

/-- The `K × K` diagonal block of `M` at offset `i·K`
(`M[min_idx:max_idx, min_idx:max_idx]` with `min_idx = i * (random_degree + 1)`). -/
def diagBlock (M : ℕ → ℕ → ℝ) (k i : ℕ) : ℕ → ℕ → ℝ :=
  fun a b => M (i * k + a) (i * k + b)

/-- `self.var_G[lactation, trait, dim]` (lines 389-391): diagonal of
`legendre_random_coefficients @ G_block @ legendre_random_coefficients.T`. -/
def var_G (p : VarParams) (lact trait dim : ℕ) : ℝ :=
  (matMulN (K p) (matMulN (K p) p.basis (diagBlock p.G (K p) (lact * p.T + trait)))
    (transposeF p.basis)) dim dim

/-- `self.var_P[lactation, trait, dim]` (lines 392-394). -/
def var_P (p : VarParams) (lact trait dim : ℕ) : ℝ :=
  (matMulN (K p) (matMulN (K p) p.basis (diagBlock p.P (K p) (lact * p.T + trait)))
    (transposeF p.basis)) dim dim

/-- `self.var_R[lactation, trait] = self.R[i, i]` (line 395). -/
def var_R (p : VarParams) (lact trait : ℕ) : ℝ :=
  p.R (lact * p.T + trait) (lact * p.T + trait)

/-- `repeat_variance` (line 396). -/
def repeatVariance (p : VarParams) (lact trait dim : ℕ) : ℝ :=
  var_G p lact trait dim + var_P p lact trait dim

/-- `pheno_variance` (line 397). -/
def phenoVariance (p : VarParams) (lact trait dim : ℕ) : ℝ :=
  repeatVariance p lact trait dim + var_R p lact trait

/-- `self.heritabilities[lactation, trait, :]` (line 398). -/
def heritabilities (p : VarParams) (lact trait dim : ℕ) : ℝ :=
  var_G p lact trait dim / phenoVariance p lact trait dim

/-- `self.repeatabilities[lactation, trait, :]` (line 399). -/
def repeatabilities (p : VarParams) (lact trait dim : ℕ) : ℝ :=
  repeatVariance p lact trait dim / phenoVariance p lact trait dim

/-- `self.avg_var_G = self.var_G.mean(axis=2)` (line 400). -/
def avg_var_G (p : VarParams) (lact trait : ℕ) : ℝ :=
  (∑ d in Finset.range p.D, var_G p lact trait d) / p.D

/-- `self.avg_var_P = self.var_P.mean(axis=2)` (line 401). -/
def avg_var_P (p : VarParams) (lact trait : ℕ) : ℝ :=
  (∑ d in Finset.range p.D, var_P p lact trait d) / p.D

/-- `self.avg_heritabilities = self.heritabilities.mean(axis=2)` (line 402). -/
def avg_heritabilities (p : VarParams) (lact trait : ℕ) : ℝ :=
  (∑ d in Finset.range p.D, heritabilities p lact trait d) / p.D

/-- `self.avg_repeatabilities = self.repeatabilities.mean(axis=2)` (line 403). -/
def avg_repeatabilities (p : VarParams) (lact trait : ℕ) : ℝ :=
  (∑ d in Finset.range p.D, repeatabilities p lact trait d) / p.D

/-- All tensors written by `__compute_variances_and_heritabilities__`. -/
structure VarOutputs where
  var_G : ℕ → ℕ → ℕ → ℝ
  var_P : ℕ → ℕ → ℕ → ℝ
  var_R : ℕ → ℕ → ℝ
  heritabilities : ℕ → ℕ → ℕ → ℝ
  repeatabilities : ℕ → ℕ → ℕ → ℝ
  avg_var_G : ℕ → ℕ → ℝ
  avg_var_P : ℕ → ℕ → ℝ
  avg_heritabilities : ℕ → ℕ → ℝ
  avg_repeatabilities : ℕ → ℕ → ℝ

/-- The outputs actually produced by `__compute_variances_and_heritabilities__`. -/
def varOutputsOf (p : VarParams) : VarOutputs :=
  ⟨var_G p, var_P p, var_R p, heritabilities p, repeatabilities p,
    avg_var_G p, avg_var_P p, avg_heritabilities p, avg_repeatabilities p⟩

/-- Embeds `__compute_variances_and_heritabilities__` (lines 378-403) as a
fallible computation. The Python body contains no `raise` and no check on
`pheno_variance`; numpy float division by zero or a negative value proceeds
(emitting at most a runtime warning), so every execution path returns
normally: the embedding is `.ok` on all inputs. -/
def computeVariancesAndHeritabilities (p : VarParams) : Except String VarOutputs :=
  Except.ok (varOutputsOf p)

/-- Inputs of `__compute_pevs_rels__` beyond `VarParams`: the symmetrized
PEV-PEC matrix of each animal (`self.PEV_PECs[j]` after `__read_pev_pec__`),
the global `self.renum.inbreeding` flag and per-animal inbreeding
coefficients. -/
structure PevParams where
  vp : VarParams
  animalCount : ℕ
  PEV_PECs : ℕ → ℕ → ℕ → ℝ
  inbreeding : Bool
  inbreedingCoefficients : ℕ → ℝ

/-- `pev_pec_block` (lines 435-436): the `K × K` diagonal block of animal `j`'s
PEV-PEC matrix at offset `i·K`. -/
def pevBlock (pp : PevParams) (i j : ℕ) : ℕ → ℕ → ℝ :=
  fun a b => pp.PEV_PECs j (i * K pp.vp + a) (i * K pp.vp + b)

/-- `self.PEVs[lactation, trait, j, dim]` (lines 437-438):
`(legendre_random_coefficients @ pev_pec_block @ legendre_random_coefficients.T).mean(axis=0)`. -/
def PEVs (pp : PevParams) (lact trait j dim : ℕ) : ℝ :=
  (∑ r in Finset.range pp.vp.D,
    (matMulN (K pp.vp) (matMulN (K pp.vp) pp.vp.basis (pevBlock pp (lact * pp.vp.T + trait) j))
      (transposeF pp.vp.basis)) r dim) / pp.vp.D

/-- `self.RELs[lactation, trait, j, dim]` (lines 439-445): with the inbreeding
branch scaling `var_G` by `1 + inbreeding_coefficients[j]`. -/
def RELs (pp : PevParams) (lact trait j dim : ℕ) : ℝ :=
  if pp.inbreeding then
    1 - PEVs pp lact trait j dim
      / (var_G pp.vp lact trait dim * (1 + pp.inbreedingCoefficients j))
  else
    1 - PEVs pp lact trait j dim / var_G pp.vp lact trait dim

/-- `self.avg_PEVs = self.PEVs.mean(axis=3)` (line 446). -/
def avg_PEVs (pp : PevParams) (lact trait j : ℕ) : ℝ :=
  (∑ d in Finset.range pp.vp.D, PEVs pp lact trait j d) / pp.vp.D

/-- `self.avg_RELs = self.RELs.mean(axis=3)` (line 447). -/
def avg_RELs (pp : PevParams) (lact trait j : ℕ) : ℝ :=
  (∑ d in Finset.range pp.vp.D, RELs pp lact trait j d) / pp.vp.D

/-- Triangular numbers: `tri r` is the number of lower-triangular entries in
rows `0..r-1`, so the packed stream position of cell `(r, c)`, `c ≤ r`, is
`tri r + c`. -/
def tri : ℕ → ℕ
  | 0 => 0
  | (n + 1) => tri n + (n + 1)

/-- Packed (row-major, diagonal-inclusive) position of lower-triangle cell `(r, c)`. -/
def ltPos (r c : ℕ) : ℕ := tri r + c

/-- Embeds the element loop of `__read_pev_pec__` (lines 414-421): values are
written at a running `(row, col)` cursor; when `col` reaches `row` the cursor
moves to the start of the next row. -/
def fillLT : List ℝ → ℕ → ℕ → (ℕ → ℕ → ℝ) → (ℕ → ℕ → ℝ)
  | [], _, _, M => M
  | v :: vs, row, col, M =>
      if col = row then
        fillLT vs (row + 1) 0 (fun r c => if r = row ∧ c = col then v else M r c)
      else
        fillLT vs row (col + 1) (fun r c => if r = row ∧ c = col then v else M r c)

/-- One animal's raw PEV-PEC matrix as read from `pev_pec_bf90` into the
zero-initialized square array. -/
def readLowerTriangle (vals : List ℝ) : ℕ → ℕ → ℝ :=
  fillLT vals 0 0 (fun _ _ => 0)

/-- The symmetrization of lines 422-423: `M += M.T`, then halve the diagonal. -/
def symmetrizePevPec (M : ℕ → ℕ → ℝ) : ℕ → ℕ → ℝ :=
  fun r c => if r = c then (M r c + M c r) / 2 else M r c + M c r

/-- The full per-animal processing of `__read_pev_pec__`: read the packed
lower triangle, then symmetrize. -/
def processPevPec (vals : List ℝ) : ℕ → ℕ → ℝ :=
  symmetrizePevPec (readLowerTriangle vals)

/-- Inputs of `__compute_DRPs__(lactation, trait)` (lines 449-473): sire/dam
arrays (`0` = unknown), the DIM-averaged reliabilities and heritability for
this (lactation, trait), and the terminal-DIM EBVs (`self.EBVs[..., -1]`). -/
structure DrpParams where
  sires : ℕ → ℕ
  dams : ℕ → ℕ
  avgRELs : ℕ → ℝ
  avgH2 : ℝ
  EBVlast : ℕ → ℝ

/-- `r2_gm` (lines 455-456). -/
def r2_gm (p : DrpParams) (j : ℕ) : ℝ :=
  ((if p.sires j > 0 then p.avgRELs (p.sires j - 1) else 0)
    + (if p.dams j > 0 then p.avgRELs (p.dams j - 1) else 0)) / 4

/-- `alfa` (line 457). -/
def alfa (p : DrpParams) (j : ℕ) : ℝ := 1 / (0.5 - r2_gm p j)

/-- `delta` (line 458). -/
def delta (p : DrpParams) (j : ℕ) : ℝ := (0.5 - r2_gm p j) / (1 - p.avgRELs j)

/-- `alfa_delta` (line 459). -/
def alfa_delta (p : DrpParams) (j : ℕ) : ℝ := (alfa p j) ^ 2 + 16 / delta p j

/-- `lambda_star` (lines 460-461). -/
def lambdaStar (p : DrpParams) : ℝ := (1 - p.avgH2) / p.avgH2

/-- `Zlgm_Zgm` (line 462). -/
def Zlgm_Zgm (p : DrpParams) (j : ℕ) : ℝ :=
  lambdaStar p * (0.5 * alfa p j - 4) + 0.5 * lambdaStar p * Real.sqrt (alfa_delta p j)

/-- `Zli_Zi` (line 463). -/
def Zli_Zi (p : DrpParams) (j : ℕ) : ℝ :=
  delta p j * Zlgm_Zgm p j + 2 * lambdaStar p * (2 * delta p j - 1)

/-- `r2i` (line 464). -/
def r2i (p : DrpParams) (j : ℕ) : ℝ :=
  1 - lambdaStar p / (Zli_Zi p j + lambdaStar p)

/-- `gm` (lines 465-466). -/
def gm (p : DrpParams) (j : ℕ) : ℝ :=
  ((if p.sires j > 0 then p.EBVlast (p.sires j - 1) else 0)
    + (if p.dams j > 0 then p.EBVlast (p.dams j - 1) else 0)) / 2

/-- `y1` (line 467). -/
def y1 (p : DrpParams) (j : ℕ) : ℝ :=
  -2 * lambdaStar p * gm p j + (Zli_Zi p j + 2 * lambdaStar p) * p.EBVlast j

/-- `DRP` (line 468). -/
def DRPval (p : DrpParams) (j : ℕ) : ℝ := y1 p j / Zli_Zi p j

/-- `wi` (lines 469-470). -/
def wi (p : DrpParams) (j : ℕ) : ℝ :=
  (1 - p.avgH2) / ((0.5 + (1 - r2i p j) / r2i p j) * p.avgH2)

/-- `self.DRPs[lactation, trait, :] = np.where(wi > 0.0, DRP, 0.0)` (line 471). -/
def DRPs (p : DrpParams) (j : ℕ) : ℝ := if wi p j > 0 then DRPval p j else 0

/-- `self.DRP_RELs[lactation, trait, :] = np.where(wi > 0.0, r2i, 0.0)` (line 472). -/
def DRP_RELs (p : DrpParams) (j : ℕ) : ℝ := if wi p j > 0 then r2i p j else 0

/-- `self.DRP_weights[lactation, trait, :] = np.where(wi > 0.0, wi, 0.0)` (line 473). -/
def DRP_weights (p : DrpParams) (j : ℕ) : ℝ := if wi p j > 0 then wi p j else 0

/-- A degenerate variance input: all of `G`, `P`, `R` zero, one trait, one
lactation, one DIM point, so the phenotypic variance is `0` everywhere. -/
def degenerateVarParams : VarParams :=
  ⟨1, 0, 1, fun _ _ => 1, fun _ _ => 0, fun _ _ => 0, fun _ _ => 0⟩

/-- A strictly positive variance input: `G = P = R = 1` (scalars after
blocking with `K = 1`), unit basis, one trait, one lactation, one DIM point. -/
def posVarParams : VarParams :=
  ⟨1, 0, 1, fun _ _ => 1, fun _ _ => 1, fun _ _ => 1, fun _ _ => 1⟩

/-- PEV/REL inputs over `posVarParams` with two animals whose (1×1) PEV-PEC
blocks differ (`0` for animal 0, `2` for animal 1), inbreeding disabled. -/
def twoAnimalPevParams : PevParams :=
  ⟨posVarParams, 2, fun j _ _ => if j = 0 then 0 else 2, false, fun _ => 0⟩

/-- PEV/REL inputs with the inbreeding branch enabled. -/
def inbredPevParams : PevParams :=
  ⟨posVarParams, 1, fun _ _ _ => 0, true, fun _ => 0⟩

/-- A DRP input making Garrick's weight negative: unknown parents, own
DIM-averaged reliability `11/32` and heritability `2`, for which
`alfa_delta = 25` and `wi = -1/4`. -/
def negWeightDrpParams : DrpParams :=
  ⟨fun _ => 0, fun _ => 0, fun _ => 11 / 32, 2, fun _ => 1⟩

/-- The zero-filled demultiplexer state allocated in `__init__`. -/
def emptySolState : SolState :=
  ⟨[], fun _ _ _ => 0, fun _ _ _ _ => 0, fun _ _ _ _ => 0⟩

lemma scaledDim_eq (lo hi d : ℕ) :
    scaledDim lo hi d = -1 + 2 * (d : ℝ) / ((hi : ℝ) - (lo : ℝ)) := by
  unfold scaledDim
  push_cast
  ring

lemma scaledDim_strictMono (lo hi : ℕ) (hlt : lo < hi) {d e : ℕ} (hde : d < e) :
    scaledDim lo hi d < scaledDim lo hi e := by
  rw [scaledDim_eq, scaledDim_eq]
  have hpos : (0 : ℝ) < (hi : ℝ) - (lo : ℝ) := by
    have : (lo : ℝ) < (hi : ℝ) := by exact_mod_cast hlt
    linarith
  have hdr : (d : ℝ) < (e : ℝ) := by exact_mod_cast hde
  have h2 : 2 * (d : ℝ) / ((hi : ℝ) - (lo : ℝ)) < 2 * (e : ℝ) / ((hi : ℝ) - (lo : ℝ)) :=
    (div_lt_div_iff_of_pos_right hpos).mpr (by linarith)
  linarith

lemma scaledDim_zero (lo hi : ℕ) : scaledDim lo hi 0 = -1 := by
  rw [scaledDim_eq]
  simp

lemma scaledDim_last (lo hi : ℕ) (hlt : lo < hi) : scaledDim lo hi (hi - lo) = 1 := by
  rw [scaledDim_eq]
  have hne : (hi : ℝ) - (lo : ℝ) ≠ 0 := by
    have : (lo : ℝ) < (hi : ℝ) := by exact_mod_cast hlt
    linarith
  have hcast : ((hi - lo : ℕ) : ℝ) = (hi : ℝ) - (lo : ℝ) := by
    have := Nat.le_of_lt hlt
    push_cast [this]
    ring
  rw [hcast, mul_div_assoc, div_self hne]
  ring

lemma legendreCumSums_eq_sum (lo hi d k : ℕ) :
    legendreCumSums lo hi d k = ∑ j in Finset.range (d + 1), legendreCoefficients lo hi j k := by
  induction d with
  | zero => simp [legendreCumSums]
  | succ n ih =>
      rw [Finset.sum_range_succ, ← ih]
      rfl

lemma tri_succ (n : ℕ) : tri (n + 1) = tri n + (n + 1) := rfl

lemma tri_mono {a b : ℕ} (h : a ≤ b) : tri a ≤ tri b := by
  induction h with
  | refl => exact le_refl _
  | step h ih =>
      refine le_trans ih ?_
      rw [tri_succ]
      omega

lemma ltPos_lt_of_row_lt {r c r' c' : ℕ} (hc : c ≤ r) (h : r < r') :
    ltPos r c < ltPos r' c' := by
  unfold ltPos
  have h2 : tri r + r < tri (r + 1) := by
    rw [tri_succ]; omega
  have h3 : tri (r + 1) ≤ tri r' := tri_mono h
  omega

lemma ltPos_inj {r c r' c' : ℕ} (hc : c ≤ r) (hc' : c' ≤ r')
    (h : ltPos r c = ltPos r' c') : r = r' ∧ c = c' := by
  rcases Nat.lt_trichotomy r r' with hlt | heq | hgt
  · exact absurd h (Nat.ne_of_lt (ltPos_lt_of_row_lt hc hlt))
  · subst heq
    unfold ltPos at h
    omega
  · exact absurd h.symm (Nat.ne_of_lt (ltPos_lt_of_row_lt hc' hgt))

/-- Cells whose packed position precedes the cursor are never rewritten. -/
lemma fillLT_past (vs : List ℝ) : ∀ (row col : ℕ) (M : ℕ → ℕ → ℝ) (r c : ℕ),
    ltPos r c < ltPos row col → fillLT vs row col M r c = M r c := by
  induction vs with
  | nil => intro row col M r c _; rfl
  | cons v vs ih =>
      intro row col M r c hlt
      have hne : ¬(r = row ∧ c = col) := by
        rintro ⟨rfl, rfl⟩
        exact lt_irrefl _ hlt
      by_cases hcr : col = row
      · rw [fillLT, if_pos hcr]
        have hnext : ltPos r c < ltPos (row + 1) 0 := by
          have : ltPos row col ≤ ltPos (row + 1) 0 := by
            unfold ltPos
            rw [tri_succ]
            omega
          omega
        rw [ih (row + 1) 0 _ r c hnext, if_neg hne]
      · rw [fillLT, if_neg hcr]
        have hnext : ltPos r c < ltPos row (col + 1) := by
          unfold ltPos at hlt ⊢
          omega
        rw [ih row (col + 1) _ r c hnext, if_neg hne]

/-- The element loop never writes strictly above the diagonal (the cursor
keeps `col ≤ row`), so strictly-upper entries stay at their initial value `0`. -/
lemma fillLT_upper (vs : List ℝ) : ∀ (row col : ℕ) (M : ℕ → ℕ → ℝ) (r c : ℕ),
    col ≤ row → (∀ a b, a < b → M a b = 0) → r < c → fillLT vs row col M r c = 0 := by
  induction vs with
  | nil => intro row col M r c _ hM hrc; exact hM r c hrc
  | cons v vs ih =>
      intro row col M r c hcursor hM hrc
      have hM2 : ∀ a b, a < b →
          (fun a b => if a = row ∧ b = col then v else M a b) a b = 0 := by
        intro a b hab
        have hne : ¬(a = row ∧ b = col) := by
          rintro ⟨rfl, rfl⟩
          omega
        simp only [if_neg hne]
        exact hM a b hab
      by_cases hcr : col = row
      · rw [fillLT, if_pos hcr]
        exact ih (row + 1) 0 _ r c (Nat.zero_le _) hM2 hrc
      · rw [fillLT, if_neg hcr]
        exact ih row (col + 1) _ r c (by omega) hM2 hrc

/-- Characterization of the element loop: the lower-triangle cell at packed
position `q` receives the `(q - cursor)`-th remaining stream value, and is
left at its prior value when the stream is too short to reach it. -/
lemma fillLT_get (vs : List ℝ) : ∀ (row col : ℕ) (M : ℕ → ℕ → ℝ) (r c : ℕ),
    col ≤ row → c ≤ r → ltPos row col ≤ ltPos r c →
    fillLT vs row col M r c =
      if ltPos r c - ltPos row col < vs.length
      then vs.getD (ltPos r c - ltPos row col) 0
      else M r c := by
  induction vs with
  | nil =>
      intro row col M r c _ _ _
      rw [if_neg (by simp)]
      rfl
  | cons v vs ih =>
      intro row col M r c hcursor hcr hle
      by_cases hq : ltPos r c = ltPos row col
      · obtain ⟨hr, hc⟩ := ltPos_inj hcr hcursor hq
        have hzero : ltPos r c - ltPos row col = 0 := by omega
        rw [hzero, if_pos (by simp)]
        have hcond : r = row ∧ c = col := ⟨hr, hc⟩
        by_cases hcl : col = row
        · rw [fillLT, if_pos hcl]
          have hnext : ltPos r c < ltPos (row + 1) 0 := by
            unfold ltPos at hq ⊢
            rw [tri_succ]
            omega
          rw [fillLT_past vs (row + 1) 0 _ r c hnext]
          simp only [if_pos hcond, List.getD_cons_zero]
        · rw [fillLT, if_neg hcl]
          have hnext : ltPos r c < ltPos row (col + 1) := by
            unfold ltPos at hq ⊢
            omega
          rw [fillLT_past vs row (col + 1) _ r c hnext]
          simp only [if_pos hcond, List.getD_cons_zero]
      · have hlt : ltPos row col < ltPos r c := lt_of_le_of_ne hle (fun h => hq h.symm)
        have hne : ¬(r = row ∧ c = col) := by
          rintro ⟨rfl, rfl⟩
          exact hq rfl
        have harith : ltPos r c - ltPos row col = (ltPos r c - (ltPos row col + 1)) + 1 := by
          omega
        have hiff : ltPos r c - (ltPos row col + 1) < vs.length ↔
            ltPos r c - (ltPos row col + 1) + 1 < vs.length + 1 := by omega
        by_cases hcl : col = row
        · rw [fillLT, if_pos hcl]
          have hnextpos : ltPos (row + 1) 0 = ltPos row col + 1 := by
            unfold ltPos
            rw [tri_succ]
            omega
          rw [ih (row + 1) 0 _ r c (Nat.zero_le _) hcr (by omega), hnextpos]
          simp only [if_neg hne, harith, List.length_cons, List.getD_cons_succ]
          by_cases hlen : ltPos r c - (ltPos row col + 1) < vs.length
          · rw [if_pos hlen, if_pos (hiff.mp hlen)]
          · rw [if_neg hlen, if_neg (fun h => hlen (hiff.mpr h))]
        · rw [fillLT, if_neg hcl]
          have hnextpos : ltPos row (col + 1) = ltPos row col + 1 := by
            unfold ltPos
            omega
          have hcursor2 : col + 1 ≤ row := by
            omega
          rw [ih row (col + 1) _ r c hcursor2 hcr (by omega), hnextpos]
          simp only [if_neg hne, harith, List.length_cons, List.getD_cons_succ]
          by_cases hlen : ltPos r c - (ltPos row col + 1) < vs.length
          · rw [if_pos hlen, if_pos (hiff.mp hlen)]
          · rw [if_neg hlen, if_neg (fun h => hlen (hiff.mpr h))]

/-- The raw matrix holds the packed stream on and below the diagonal. -/
lemma readLowerTriangle_lower (vals : List ℝ) {r c : ℕ} (h : c ≤ r) :
    readLowerTriangle vals r c = vals.getD (ltPos r c) 0 := by
  unfold readLowerTriangle
  rw [fillLT_get vals 0 0 _ r c (le_refl 0) h (by unfold ltPos tri; omega)]
  have hzero : ltPos 0 0 = 0 := rfl
  rw [hzero, Nat.sub_zero]
  by_cases hlen : ltPos r c < vals.length
  · rw [if_pos hlen]
  · rw [if_neg hlen]
    exact (List.getD_eq_default _ _ (by omega)).symm

/-- The raw matrix is zero strictly above the diagonal. -/
lemma readLowerTriangle_upper (vals : List ℝ) {r c : ℕ} (h : r < c) :
    readLowerTriangle vals r c = 0 :=
  fillLT_upper vals 0 0 _ r c (le_refl 0) (fun _ _ _ => rfl) h

/-- The diagonal-style projection `(B @ M @ B.T)[d, e]` written as a double sum. -/
lemma matMul_diag_expand (n : ℕ) (B M : ℕ → ℕ → ℝ) (d e : ℕ) :
    (matMulN n (matMulN n B M) (transposeF B)) d e
      = ∑ a in Finset.range n, ∑ b in Finset.range n, B d a * M a b * B e b := by
  unfold matMulN transposeF
  simp only [Finset.sum_mul]
  rw [Finset.sum_comm]

/-- C2: for every (lactation, trait) pair with flat index `i = lactation·T + trait`
and `K = random_degree + 1`, `var_G` at every DIM offset is the diagonal of
`basis_random · G_block · basis_randomᵗ` with `G_block` the `K×K` diagonal block
of `G` at offset `i·K`, `var_P` likewise from `P`, `var_R = R[i,i]` constant
over DIM; repeatable variance is `var_G + var_P`, phenotypic variance adds
`var_R`, heritability and repeatability are the stated ratios per DIM, and the
four DIM-averages are arithmetic means over the DIM axis. -/
theorem variance_heritability_engine (p : VarParams) (l t d : ℕ) :
    var_G p l t d = ∑ a in Finset.range (K p), ∑ b in Finset.range (K p),
        p.basis d a * p.G ((l * p.T + t) * K p + a) ((l * p.T + t) * K p + b) * p.basis d b
  ∧ var_P p l t d = ∑ a in Finset.range (K p), ∑ b in Finset.range (K p),
        p.basis d a * p.P ((l * p.T + t) * K p + a) ((l * p.T + t) * K p + b) * p.basis d b
  ∧ var_R p l t = p.R (l * p.T + t) (l * p.T + t)
  ∧ repeatVariance p l t d = var_G p l t d + var_P p l t d
  ∧ phenoVariance p l t d = repeatVariance p l t d + var_R p l t
  ∧ heritabilities p l t d = var_G p l t d / phenoVariance p l t d
  ∧ repeatabilities p l t d = repeatVariance p l t d / phenoVariance p l t d
  ∧ avg_var_G p l t = (∑ e in Finset.range p.D, var_G p l t e) / p.D
  ∧ avg_var_P p l t = (∑ e in Finset.range p.D, var_P p l t e) / p.D
  ∧ avg_heritabilities p l t = (∑ e in Finset.range p.D, heritabilities p l t e) / p.D
  ∧ avg_repeatabilities p l t = (∑ e in Finset.range p.D, repeatabilities p l t e) / p.D := by
  refine ⟨?_, ?_, rfl, rfl, rfl, rfl, rfl, rfl, rfl, rfl, rfl⟩
  · unfold var_G
    rw [matMul_diag_expand]
    simp only [diagBlock]
  · unfold var_P
    rw [matMul_diag_expand]
    simp only [diagBlock]

/-- C7 counterexample: with all-zero `G`, `P`, `R` the phenotypic variance at
(lactation 0, trait 0, DIM 0) is `0`, yet `__compute_variances_and_heritabilities__`
returns normally with the division results — the Python body has no check and no
`raise`, and numpy float division by zero does not raise. -/
theorem variance_degeneracy_not_fatal :
    phenoVariance degenerateVarParams 0 0 0 ≤ 0
  ∧ computeVariancesAndHeritabilities degenerateVarParams
      = Except.ok (varOutputsOf degenerateVarParams) := by
  constructor
  · have h : phenoVariance degenerateVarParams 0 0 0 = 0 := by
      norm_num [phenoVariance, repeatVariance, var_G, var_P, var_R, matMulN, transposeF,
        diagBlock, K, degenerateVarParams]
    rw [h]
  · rfl

/-- C7 amended: when the phenotypic variance is zero or negative at some DIM
point, the engine does not fail; it returns normally and stores heritability
and repeatability computed by the same division formulas. -/
theorem variance_engine_total (p : VarParams) (l t d : ℕ)
    (_h : phenoVariance p l t d ≤ 0) :
    computeVariancesAndHeritabilities p = Except.ok (varOutputsOf p)
  ∧ (varOutputsOf p).heritabilities l t d = var_G p l t d / phenoVariance p l t d
  ∧ (varOutputsOf p).repeatabilities l t d
      = repeatVariance p l t d / phenoVariance p l t d :=
  ⟨rfl, rfl, rfl⟩

theorem variance_engine_total_witness :
    phenoVariance degenerateVarParams 0 0 0 ≤ 0
  ∧ computeVariancesAndHeritabilities degenerateVarParams
      = Except.ok (varOutputsOf degenerateVarParams)
  ∧ (varOutputsOf degenerateVarParams).heritabilities 0 0 0
      = var_G degenerateVarParams 0 0 0 / phenoVariance degenerateVarParams 0 0 0 := by
  have h : phenoVariance degenerateVarParams 0 0 0 ≤ 0 := by
    have h0 : phenoVariance degenerateVarParams 0 0 0 = 0 := by
      norm_num [phenoVariance, repeatVariance, var_G, var_P, var_R, matMulN, transposeF,
        diagBlock, K, degenerateVarParams]
    rw [h0]
  have hmain := variance_engine_total degenerateVarParams 0 0 0 h
  exact ⟨h, hmain.1, hmain.2.1⟩

/-- C8: where `var_G`, `var_P` and `var_R` are strictly positive at every DIM
point of a (lactation, trait) pair, heritability and repeatability lie in
`[0, 1]` at every DIM point, and heritability is pointwise at most
repeatability. -/
theorem heritability_repeatability_bounds (p : VarParams) (l t : ℕ)
    (hg : ∀ d, d < p.D → 0 < var_G p l t d)
    (hp : ∀ d, d < p.D → 0 < var_P p l t d)
    (hr : 0 < var_R p l t) :
    ∀ d, d < p.D →
      0 ≤ heritabilities p l t d ∧ heritabilities p l t d ≤ 1
      ∧ 0 ≤ repeatabilities p l t d ∧ repeatabilities p l t d ≤ 1
      ∧ heritabilities p l t d ≤ repeatabilities p l t d := by
  intro d hd
  have hgd := hg d hd
  have hpd := hp d hd
  have hpheno : 0 < phenoVariance p l t d := by
    unfold phenoVariance repeatVariance
    linarith
  have hrep : 0 < repeatVariance p l t d := by
    unfold repeatVariance
    linarith
  unfold heritabilities repeatabilities
  refine ⟨div_nonneg (le_of_lt hgd) (le_of_lt hpheno), ?_,
    div_nonneg (le_of_lt hrep) (le_of_lt hpheno), ?_, ?_⟩
  · rw [div_le_one hpheno]
    unfold phenoVariance repeatVariance
    linarith
  · rw [div_le_one hpheno]
    unfold phenoVariance
    linarith
  · have hle : var_G p l t d ≤ repeatVariance p l t d := by
      unfold repeatVariance
      linarith
    exact (div_le_div_iff_of_pos_right hpheno).mpr hle

theorem heritability_repeatability_bounds_witness :
    (∀ d, d < posVarParams.D → 0 < var_G posVarParams 0 0 d)
  ∧ (∀ d, d < posVarParams.D → 0 < var_P posVarParams 0 0 d)
  ∧ 0 < var_R posVarParams 0 0
  ∧ (0 ≤ heritabilities posVarParams 0 0 0 ∧ heritabilities posVarParams 0 0 0 ≤ 1
      ∧ 0 ≤ repeatabilities posVarParams 0 0 0 ∧ repeatabilities posVarParams 0 0 0 ≤ 1
      ∧ heritabilities posVarParams 0 0 0 ≤ repeatabilities posVarParams 0 0 0) := by
  have hg : ∀ d, d < posVarParams.D → 0 < var_G posVarParams 0 0 d := by
    intro d _
    norm_num [var_G, matMulN, transposeF, diagBlock, K, posVarParams]
  have hp : ∀ d, d < posVarParams.D → 0 < var_P posVarParams 0 0 d := by
    intro d _
    norm_num [var_P, matMulN, transposeF, diagBlock, K, posVarParams]
  have hr : 0 < var_R posVarParams 0 0 := by
    norm_num [var_R, posVarParams]
  exact ⟨hg, hp, hr,
    heritability_repeatability_bounds posVarParams 0 0 hg hp hr 0 (by norm_num [posVarParams])⟩

/-- C3: for every animal and (lactation, trait) block at offset `i·K` of that
animal's symmetrized PEV-PEC matrix, the per-DIM prediction-error variance is
the mean over basis rows of `basis_random · block · basis_randomᵗ`, and the
reliability is `1 − PEV / var_G`, with `var_G` scaled by
`1 + inbreeding_coefficients[j]` exactly when the inbreeding option is
enabled. -/
theorem pev_rel_engine (pp : PevParams) (l t j d : ℕ) :
    PEVs pp l t j d
      = (∑ r in Finset.range pp.vp.D, ∑ a in Finset.range (K pp.vp),
          ∑ b in Finset.range (K pp.vp),
            pp.vp.basis r a * pevBlock pp (l * pp.vp.T + t) j a b * pp.vp.basis d b)
        / pp.vp.D
  ∧ (pp.inbreeding = true →
      RELs pp l t j d = 1 - PEVs pp l t j d
        / (var_G pp.vp l t d * (1 + pp.inbreedingCoefficients j)))
  ∧ (pp.inbreeding = false →
      RELs pp l t j d = 1 - PEVs pp l t j d / var_G pp.vp l t d) := by
  refine ⟨?_, ?_, ?_⟩
  · unfold PEVs
    congr 1
    apply Finset.sum_congr rfl
    intro r _
    exact matMul_diag_expand (K pp.vp) pp.vp.basis (pevBlock pp (l * pp.vp.T + t) j) r d
  · intro h
    simp [RELs, h]
  · intro h
    simp [RELs, h]

theorem pev_rel_engine_witness :
    inbredPevParams.inbreeding = true
  ∧ RELs inbredPevParams 0 0 0 0
      = 1 - PEVs inbredPevParams 0 0 0 0
        / (var_G inbredPevParams.vp 0 0 0 * (1 + inbredPevParams.inbreedingCoefficients 0)) :=
  ⟨rfl, (pev_rel_engine inbredPevParams 0 0 0 0).2.1 rfl⟩

/-- C9 counterexample: with two animals whose symmetrized PEV-PEC blocks
differ, `avg_RELs` for animal 0 is `1`, while the average of the per-DIM
reliabilities over both the DIM axis and the animal axis is `0`: the stored
average is not taken over the animal axis. -/
theorem avg_rels_not_animal_averaged :
    avg_RELs twoAnimalPevParams 0 0 0
      ≠ (∑ j in Finset.range twoAnimalPevParams.animalCount,
          ∑ d in Finset.range twoAnimalPevParams.vp.D, RELs twoAnimalPevParams 0 0 j d)
        / (twoAnimalPevParams.animalCount * twoAnimalPevParams.vp.D) := by
  have h0 : avg_RELs twoAnimalPevParams 0 0 0 = 1 := by
    norm_num [avg_RELs, RELs, PEVs, var_G, matMulN, transposeF, diagBlock, pevBlock, K,
      twoAnimalPevParams, posVarParams]
  have h1 : (∑ j in Finset.range twoAnimalPevParams.animalCount,
        ∑ d in Finset.range twoAnimalPevParams.vp.D, RELs twoAnimalPevParams 0 0 j d)
      / (twoAnimalPevParams.animalCount * twoAnimalPevParams.vp.D) = 0 := by
    norm_num [avg_RELs, RELs, PEVs, var_G, matMulN, transposeF, diagBlock, pevBlock, K,
      twoAnimalPevParams, posVarParams, Finset.sum_range_succ]
  rw [h0, h1]
  norm_num

/-- C9 amended: the averaged-reliability output is the per-DIM reliability
averaged over the DIM axis only (`self.RELs.mean(axis=3)`), retaining the
animal axis, so the result has shape (L, T, N). -/
theorem avg_rels_dim_average (pp : PevParams) (l t j : ℕ) :
    avg_RELs pp l t j = (∑ d in Finset.range pp.vp.D, RELs pp l t j d) / pp.vp.D := rfl

/-- C5: after the symmetrization step of `__read_pev_pec__` (reading the
lower-triangular packing into a zero-initialized square matrix, adding the
transpose, then halving the diagonal) the processed matrix equals its own
transpose. -/
theorem pev_pec_symmetric (vals : List ℝ) (r c : ℕ) :
    processPevPec vals r c = processPevPec vals c r := by
  unfold processPevPec symmetrizePevPec
  rcases eq_or_ne r c with h | h
  · rw [h]
  · rw [if_neg h, if_neg (Ne.symm h)]
    ring

/-- C10: the symmetrization leaves every diagonal entry equal to the raw
diagonal value read from the lower-triangular stream (the strictly-upper
triangle being zero before the transpose-add, the add doubles the diagonal
and the halving restores it), while off-diagonal entries are mirrored: below
the diagonal the raw value is kept, above it the mirror copy appears. -/
theorem symmetrization_diagonal_frame (vals : List ℝ) (r c : ℕ) :
    processPevPec vals r r = readLowerTriangle vals r r
  ∧ processPevPec vals r r = vals.getD (ltPos r r) 0
  ∧ (c < r →
      processPevPec vals r c = readLowerTriangle vals r c
      ∧ processPevPec vals c r = readLowerTriangle vals r c
      ∧ processPevPec vals r c = vals.getD (ltPos r c) 0) := by
  have hdiag : processPevPec vals r r = readLowerTriangle vals r r := by
    unfold processPevPec symmetrizePevPec
    rw [if_pos rfl]
    ring
  refine ⟨hdiag, ?_, ?_⟩
  · rw [hdiag, readLowerTriangle_lower vals (le_refl r)]
  · intro hcr
    have hne : r ≠ c := by omega
    have hup : readLowerTriangle vals c r = 0 := readLowerTriangle_upper vals hcr
    have hlow : processPevPec vals r c = readLowerTriangle vals r c := by
      unfold processPevPec symmetrizePevPec
      rw [if_neg hne, hup]
      ring
    refine ⟨hlow, ?_, ?_⟩
    · unfold processPevPec symmetrizePevPec
      rw [if_neg (Ne.symm hne), hup]
      ring
    · rw [hlow, readLowerTriangle_lower vals (le_of_lt hcr)]

theorem symmetrization_diagonal_frame_witness :
    (0 : ℕ) < 1
  ∧ processPevPec [3, 5, 7] 1 1 = ([3, 5, 7] : List ℝ).getD (ltPos 1 1) 0
  ∧ processPevPec [3, 5, 7] 1 0 = readLowerTriangle [3, 5, 7] 1 0
  ∧ processPevPec [3, 5, 7] 0 1 = readLowerTriangle [3, 5, 7] 1 0
  ∧ processPevPec [3, 5, 7] 1 0 = ([3, 5, 7] : List ℝ).getD (ltPos 1 0) 0 := by
  have h := symmetrization_diagonal_frame [3, 5, 7] 1 0
  have hoff := h.2.2 (by norm_num)
  exact ⟨by norm_num, h.2.1, hoff.1, hoff.2.1, hoff.2.2⟩

/-- C1: every solved record (trait, effect, level, value) with 1-based indices
is routed by effect band to exactly one destination, the other three
destinations being untouched: effect ≤ F appends the value to the fixed-effect
sequence in stream order; F < effect ≤ F + fixed_degree + 1 stores it in the
fixed-curve tensor at (lactation, trait, effect − F − 1) with
lactation = (trait−1) div T and trait = (trait−1) mod T; the next band of width
random_degree + 1 stores it in the additive tensor at
(lactation, trait, level − 1, effect − F − fixed_degree − 2); any larger effect
goes to the permanent tensor at
(lactation, trait, level − 1, effect − F − fixed_degree − random_degree − 3). -/
theorem solution_demux_routing (F fixedDegree randomDegree T : ℕ) (s : SolState)
    (r : SolRecord) (_ht : 1 ≤ r.trait) (_hl : 1 ≤ r.level) :
    (r.effect ≤ F →
      routeRecord F fixedDegree randomDegree T s r = { s with FE := s.FE ++ [r.value] })
  ∧ (F < r.effect → r.effect ≤ F + fixedDegree + 1 →
      routeRecord F fixedDegree randomDegree T s r
        = { s with fixedCurveCoefficients := fun l t k =>
            if l = (r.trait - 1) / T ∧ t = (r.trait - 1) % T ∧ k = r.effect - F - 1
            then r.value else s.fixedCurveCoefficients l t k })
  ∧ (F + fixedDegree + 1 < r.effect → r.effect ≤ F + fixedDegree + randomDegree + 2 →
      routeRecord F fixedDegree randomDegree T s r
        = { s with additiveCoefficients := fun l t a k =>
            if l = (r.trait - 1) / T ∧ t = (r.trait - 1) % T ∧ a = r.level - 1 ∧
                k = r.effect - F - fixedDegree - 2 then r.value
            else s.additiveCoefficients l t a k })
  ∧ (F + fixedDegree + randomDegree + 2 < r.effect →
      routeRecord F fixedDegree randomDegree T s r
        = { s with permanentCoefficients := fun l t a k =>
            if l = (r.trait - 1) / T ∧ t = (r.trait - 1) % T ∧ a = r.level - 1 ∧
                k = r.effect - F - fixedDegree - randomDegree - 3 then r.value
            else s.permanentCoefficients l t a k }) := by
  refine ⟨?_, ?_, ?_, ?_⟩
  · intro h1
    unfold routeRecord
    rw [if_pos h1]
  · intro h1 h2
    unfold routeRecord
    rw [if_neg (by omega), if_pos h2]
  · intro h1 h2
    unfold routeRecord
    rw [if_neg (by omega), if_neg (by omega), if_pos h2]
  · intro h1
    unfold routeRecord
    rw [if_neg (by omega), if_neg (by omega), if_neg (by omega)]

theorem solution_demux_routing_witness :
    routeRecord 0 0 0 1 emptySolState ⟨1, 1, 1, 2⟩
      = { emptySolState with fixedCurveCoefficients := fun l t k =>
          if l = (1 - 1) / 1 ∧ t = (1 - 1) % 1 ∧ k = 1 - 0 - 1
          then (2 : ℝ) else emptySolState.fixedCurveCoefficients l t k }
  ∧ (routeRecord 0 0 0 1 emptySolState ⟨1, 1, 1, 2⟩).fixedCurveCoefficients 0 0 0 = 2 := by
  have h := (solution_demux_routing 0 0 0 1 emptySolState ⟨1, 1, 1, 2⟩
    (by norm_num) (by norm_num)).2.1 (by norm_num) (by norm_num)
  refine ⟨h, ?_⟩
  rw [h]
  norm_num

/-- C4: for every DIM range with dim_min < dim_max, the Basis Builder yields a
grid of length dim_max − dim_min + 1 that is the strictly increasing linear
map of dim_min..dim_max onto [−1, 1]; its Legendre table column k is the
degree-k Legendre polynomial at the grid scaled by √(k + 0.5); the cumulative
table is the column-wise running sum; and on range (5, 6) with degree 0 the
grid is [−1, 1] and table column 0 is [√0.5, √0.5]. The construction is a
pure function of the range and degree. -/
theorem basis_builder_spec :
    (∀ lo hi : ℕ, lo < hi →
      (scaledDimGrid lo hi).length = hi - lo + 1
      ∧ (∀ d e : ℕ, d < e → e ≤ hi - lo → scaledDim lo hi d < scaledDim lo hi e)
      ∧ scaledDim lo hi 0 = -1
      ∧ scaledDim lo hi (hi - lo) = 1
      ∧ (∀ d : ℕ, scaledDim lo hi d = -1 + 2 * (d : ℝ) / ((hi : ℝ) - (lo : ℝ)))
      ∧ (∀ d k : ℕ, legendreCoefficients lo hi d k
          = legendreP k (scaledDim lo hi d) * Real.sqrt ((k : ℝ) + 0.5))
      ∧ (∀ d k : ℕ, legendreCumSums lo hi d k
          = ∑ j in Finset.range (d + 1), legendreCoefficients lo hi j k))
  ∧ scaledDim 5 6 0 = -1
  ∧ scaledDim 5 6 1 = 1
  ∧ legendreCoefficients 5 6 0 0 = Real.sqrt 0.5
  ∧ legendreCoefficients 5 6 1 0 = Real.sqrt 0.5 := by
  constructor
  · intro lo hi hlt
    refine ⟨by simp [scaledDimGrid], ?_, scaledDim_zero lo hi, scaledDim_last lo hi hlt,
      scaledDim_eq lo hi, fun d k => rfl, legendreCumSums_eq_sum lo hi⟩
    intro d e hde _
    exact scaledDim_strictMono lo hi hlt hde
  · refine ⟨scaledDim_zero 5 6, ?_, ?_, ?_⟩
    · rw [scaledDim_eq]
      norm_num
    · norm_num [legendreCoefficients, legendreP]
    · norm_num [legendreCoefficients, legendreP]

theorem basis_builder_spec_witness :
    (5 : ℕ) < 6
  ∧ (scaledDimGrid 5 6).length = 2
  ∧ scaledDim 5 6 (6 - 5) = 1
  ∧ scaledDim 5 6 0 < scaledDim 5 6 1 := by
  have h := basis_builder_spec.1 5 6 (by norm_num)
  refine ⟨by norm_num, ?_, h.2.2.2.1, h.2.1 0 1 (by norm_num) (by norm_num)⟩
  have hlen := h.1
  simpa using hlen

/-- C6: for every animal, when Garrick's weight wi = (1 − h2) /
((0.5 + (1 − r2i)/r2i)·h2) is ≤ 0 the stored DRP, DRP-reliability and
DRP-weight are all exactly zero (no error path exists in the computation);
when wi > 0 the stored values are DRP = y1 / Zli_Zi, r2i and wi. -/
theorem drp_output_policy (p : DrpParams) (j : ℕ) :
    DRPval p j = y1 p j / Zli_Zi p j
  ∧ wi p j = (1 - p.avgH2) / ((0.5 + (1 - r2i p j) / r2i p j) * p.avgH2)
  ∧ (wi p j ≤ 0 → DRPs p j = 0 ∧ DRP_RELs p j = 0 ∧ DRP_weights p j = 0)
  ∧ (0 < wi p j → DRPs p j = DRPval p j ∧ DRP_RELs p j = r2i p j
      ∧ DRP_weights p j = wi p j) := by
  refine ⟨rfl, rfl, ?_, ?_⟩
  · intro h
    have hn : ¬ (wi p j > 0) := not_lt.mpr h
    exact ⟨if_neg hn, if_neg hn, if_neg hn⟩
  · intro h
    exact ⟨if_pos h, if_pos h, if_pos h⟩

theorem drp_output_policy_witness :
    wi negWeightDrpParams 0 ≤ 0
  ∧ DRPs negWeightDrpParams 0 = 0
  ∧ DRP_RELs negWeightDrpParams 0 = 0
  ∧ DRP_weights negWeightDrpParams 0 = 0 := by
  have hr2gm : r2_gm negWeightDrpParams 0 = 0 := by
    norm_num [r2_gm, negWeightDrpParams]
  have halfa : alfa negWeightDrpParams 0 = 2 := by
    unfold alfa
    rw [hr2gm]
    norm_num
  have hdelta : delta negWeightDrpParams 0 = 16 / 21 := by
    unfold delta
    rw [hr2gm]
    norm_num [negWeightDrpParams]
  have had : alfa_delta negWeightDrpParams 0 = 25 := by
    unfold alfa_delta
    rw [halfa, hdelta]
    norm_num
  have hsq : Real.sqrt (alfa_delta negWeightDrpParams 0) = 5 := by
    rw [had, show (25 : ℝ) = 5 ^ 2 by norm_num, Real.sqrt_sq (by norm_num : (0 : ℝ) ≤ 5)]
  have hls : lambdaStar negWeightDrpParams = -(1 / 2) := by
    norm_num [lambdaStar, negWeightDrpParams]
  have hzgm : Zlgm_Zgm negWeightDrpParams 0 = 1 / 4 := by
    unfold Zlgm_Zgm
    rw [hls, halfa, hsq]
    norm_num
  have hzi : Zli_Zi negWeightDrpParams 0 = -(1 / 3) := by
    unfold Zli_Zi
    rw [hdelta, hzgm, hls]
    norm_num
  have hr2i : r2i negWeightDrpParams 0 = 2 / 5 := by
    unfold r2i
    rw [hzi, hls]
    norm_num
  have hwi : wi negWeightDrpParams 0 ≤ 0 := by
    unfold wi
    rw [hr2i]
    norm_num [negWeightDrpParams]
  have hmain := (drp_output_policy negWeightDrpParams 0).2.2.1 hwi
  exact ⟨hwi, hmain.1, hmain.2.1, hmain.2.2⟩

end

end AmTdm
